import Mathlib

/-!
Verification of the text-metrics engine of the Sentiment-Analysis repository
(`sentiment_analyzer.py`, `main.py`).

Texts are modelled as lists of Unicode code points (`List Nat`), mirroring
Python strings.  All real-valued metrics are modelled over `ℚ`; Python float
literals such as `1e-6` and `0.4` are taken at their decimal value.
External NLTK resources (tokenizers, stopword list, opinion lexicon) are not
part of the repository; they are modelled from the spec where needed and
otherwise passed as parameters.
-/

/-- Code point of the space character. -/
def spaceCode : Nat := 32

/-- ASCII alphanumeric test, modelling Python `str.isalnum` per character. -/
def isAlnum (c : Nat) : Bool :=
  decide (48 ≤ c ∧ c ≤ 57) || decide (65 ≤ c ∧ c ≤ 90) || decide (97 ≤ c ∧ c ≤ 122)

/-- ASCII lower-casing, modelling Python `str.lower` per character. -/
def toLower (c : Nat) : Nat :=
  if 65 ≤ c ∧ c ≤ 90 then c + 32 else c

/-- Membership in the fixed vowel string `aeiou` of `count_syllables`. -/
def isVowel (c : Nat) : Bool :=
  decide (c = 97) || decide (c = 101) || decide (c = 105) || decide (c = 111) || decide (c = 117)

/-- Python whitespace test (space, tab, newline, CR), for `str.split`. -/
def isSpaceChar (c : Nat) : Bool :=
  decide (c = 32) || decide (c = 9) || decide (c = 10) || decide (c = 13)

/-- Sentence-ending punctuation: full stop, exclamation mark, question mark. -/
def isSentEnd (c : Nat) : Bool :=
  decide (c = 46) || decide (c = 33) || decide (c = 63)

/-- Regex word character (`\w`, ASCII): alphanumeric or underscore. -/
def isWordChar (c : Nat) : Bool :=
  isAlnum c || decide (c = 95)

/-- Converts a Lean string literal into its list of code points. -/
def str (s : String) : List Nat :=
  s.toList.map Char.toNat

/-- Auxiliary of `splitRuns`: structural scan with an accumulator of the
current run of characters satisfying `p`. -/
def splitRunsAux (p : Nat → Bool) : List Nat → List Nat → List (List Nat)
  | [], acc => if acc.isEmpty then [] else [acc]
  | c :: rest, acc =>
    if p c then splitRunsAux p rest (acc ++ [c])
    else if acc.isEmpty then splitRunsAux p rest []
    else acc :: splitRunsAux p rest []

/-- Maximal runs of characters satisfying `p`; separator characters are
dropped and no empty runs are produced. -/
def splitRuns (p : Nat → Bool) (s : List Nat) : List (List Nat) :=
  splitRunsAux p s []

/-- Joins words with a single space, modelling Python `' '.join`. -/
def joinSpace : List (List Nat) → List Nat
  | [] => []
  | [w] => w
  | w :: v :: rest => w ++ spaceCode :: joinSpace (v :: rest)

/-- Modelled from the spec: NLTK `word_tokenize` is an external resource;
per spec section 4.1 letters and digits form tokens while punctuation and
whitespace are boundaries, so tokens are the maximal alphanumeric runs. -/
def word_tokenize (s : List Nat) : List (List Nat) :=
  splitRuns isAlnum s

/-- Python `str.split()`: maximal runs of non-whitespace characters. -/
def pySplit (s : List Nat) : List (List Nat) :=
  splitRuns (fun c => !(isSpaceChar c)) s

/-- Modelled from the spec: NLTK `sent_tokenize` is an external resource;
per spec section 4.3 text splits into sentences at `.`, `!`, `?`; segments
consisting only of whitespace are not sentences. -/
def sent_tokenize (s : List Nat) : List (List Nat) :=
  (splitRuns (fun c => !(isSentEnd c)) s).filter (fun seg => seg.any (fun c => !(isSpaceChar c)))

/-- Python per-token `str.isalnum`: nonempty and every character alphanumeric. -/
def pyIsAlnum (w : List Nat) : Bool :=
  !w.isEmpty && w.all isAlnum

/-- The word list produced inside `clean_text`: tokenize, keep alphanumeric
tokens, lowercase, drop stopwords. -/
def cleanWords (stops : List (List Nat)) (text : List Nat) : List (List Nat) :=
  (((word_tokenize text).filter pyIsAlnum).map (List.map toLower)).filter
    (fun w => decide (w ∉ stops))

/-- Embeds `TextAnalyzer.clean_text`: tokenize, keep alphanumeric tokens,
lowercase, remove stopwords, rejoin with single spaces.  The stopword set is
an external NLTK resource passed as a parameter. -/
def clean_text (stops : List (List Nat)) (text : List Nat) : List Nat :=
  joinSpace (cleanWords stops text)


/-- The smoothing constant `0.000001` of `sentiment_analysis`. -/
def eps : ℚ := 1 / 1000000

/-- Embeds `TextAnalyzer.sentiment_analysis`: counts tokens found in the
positive and negative opinion lexica (external NLTK resources passed as
parameters) and forms the smoothed polarity and subjectivity ratios. -/
def sentiment_analysis (pos neg : List (List Nat)) (text : List (List Nat)) :
    Nat × Nat × ℚ × ℚ :=
  let positive_score : Nat := (text.map (fun word => if word ∈ pos then 1 else 0)).sum
  let negative_score : Nat := (text.map (fun word => if word ∈ neg then 1 else 0)).sum
  let polarity_score : ℚ :=
    ((positive_score : ℚ) - (negative_score : ℚ)) /
      ((positive_score : ℚ) + (negative_score : ℚ) + eps)
  let subjectivity_score : ℚ :=
    ((positive_score : ℚ) + (negative_score : ℚ)) / ((text.length : ℚ) + eps)
  (positive_score, negative_score, polarity_score, subjectivity_score)

/-- Auxiliary of `count_syllables`: the loop over the characters carrying the
`prev_char_was_vowel` flag. -/
def syllablesAux : List Nat → Bool → Nat
  | [], _ => 0
  | c :: rest, prev =>
    if isVowel c && !prev then 1 + syllablesAux rest true
    else if !(isVowel c) then syllablesAux rest false
    else syllablesAux rest prev

/-- Embeds `TextAnalyzer.count_syllables`: scans the word, incrementing on
each transition from non-vowel (or start) into a vowel. -/
def count_syllables (word : List Nat) : Nat :=
  syllablesAux word false

/-- Embeds `TextAnalyzer.syllable_count_per_word`: total syllables of the
cleaned words divided by their number; `none` models the Python
`ZeroDivisionError` on an empty word list. -/
def syllable_count_per_word (stops : List (List Nat)) (text : List Nat) : Option ℚ :=
  let words := pySplit (clean_text stops text)
  if words.length = 0 then none
  else some (((words.map count_syllables).sum : ℚ) / (words.length : ℚ))

/-- The pronoun list `['i', 'we', 'my', 'ours', 'us']` of
`count_personal_pronouns`. -/
def pronounList : List (List Nat) :=
  [str ("i"), str ("we"), str ("my"), str ("ours"), str ("us")]

/-- Whether the pattern `p` matches at the head of `s` with a word boundary
after the match (the `\b` following the alternation). -/
def boundaryMatch (p s : List Nat) : Bool :=
  p.isPrefixOf s &&
    (match s.drop p.length with
     | [] => true
     | d :: _ => !isWordChar d)

/-- Whether some alternative of the pattern matches at the head of `s` with a
trailing word boundary. -/
def matchesAt (ps : List (List Nat)) (s : List Nat) : Bool :=
  ps.any (fun p => boundaryMatch p s)

/-- Auxiliary of `count_personal_pronouns`: left-to-right scan counting the
match positions of `\b(?:i|we|my|ours|us)\b`.  The flag records whether the
previous character was a regex word character, so a match is attempted
exactly at the positions where the leading `\b` can hold.  Since every
alternative is a nonempty all-word-character string and carries a trailing
`\b`, matches of `re.findall` can neither start inside a previous match nor
at the character right after one, so this single-step scan counts exactly
the non-overlapping matches found by `re.findall`. -/
def countPronAux (ps : List (List Nat)) : List Nat → Bool → Nat
  | [], _ => 0
  | c :: rest, prev =>
    (if !prev && matchesAt ps (c :: rest) then 1 else 0) + countPronAux ps rest (isWordChar c)

/-- Embeds `TextAnalyzer.count_personal_pronouns`: case-insensitive
whole-word occurrences of the fixed pronoun set in the lowered text. -/
def count_personal_pronouns (text : List Nat) : Nat :=
  countPronAux pronounList (text.map toLower) false

/-- Embeds `TextAnalyzer.average_word_length`: total characters of the
cleaned words divided by their number; `none` models the Python
`ZeroDivisionError` on an empty word list. -/
def average_word_length (stops : List (List Nat)) (text : List Nat) : Option ℚ :=
  let words := pySplit (clean_text stops text)
  if words.length = 0 then none
  else some (((words.map List.length).sum : ℚ) / (words.length : ℚ))

/-- The complex-word test of `readability_analysis`: character length
greater than 6 and syllable count greater than 3. -/
def isComplexWord (w : List Nat) : Bool :=
  decide (6 < w.length) && decide (3 < count_syllables w)

/-- Embeds `TextAnalyzer.readability_analysis`: average words per sentence
over the sentence split of the input, complex-word count over the cleaned
words, and the fog index; `none` models the Python `ZeroDivisionError` when
the sentence list or the cleaned word list is empty. -/
def readability_analysis (stops : List (List Nat)) (text : List Nat) :
    Option (ℚ × Nat × ℚ) :=
  let sentences := sent_tokenize text
  if sentences.length = 0 then none
  else
    let total_words := (sentences.map (fun sentence => (word_tokenize sentence).length)).sum
    let avg_words_per_sentence : ℚ := (total_words : ℚ) / (sentences.length : ℚ)
    let words := pySplit (clean_text stops text)
    if words.length = 0 then none
    else
      let complex_word_count := words.countP isComplexWord
      let fog_index : ℚ :=
        (2 / 5 : ℚ) * (avg_words_per_sentence + (complex_word_count : ℚ) / (words.length : ℚ))
      some (avg_words_per_sentence, complex_word_count, fog_index)

/-- The 13 fields of the output record of `TextAnalyzer.analyze_text`, in
source order. -/
structure MetricsRecord where
  positiveScore : Nat
  negativeScore : Nat
  polarityScore : ℚ
  subjectivityScore : ℚ
  avgSentenceLength : ℚ
  percentageComplexWords : ℚ
  fogIndex : ℚ
  avgWordsPerSentence : ℚ
  complexWordCount : Nat
  wordCount : Nat
  syllablePerWord : ℚ
  personalPronouns : Nat
  avgWordLength : ℚ
  deriving Repr, DecidableEq

/-- Embeds `TextAnalyzer.analyze_text`: cleans the text once, then feeds the
cleaned text (not the raw text) to every metric function, exactly as the
source does; `none` models any `ZeroDivisionError` escaping the call. -/
def analyze_text (stops pos neg : List (List Nat)) (text : List Nat) :
    Option MetricsRecord :=
  let cleaned_text := clean_text stops text
  let tokenized_text := word_tokenize cleaned_text
  let s := sentiment_analysis pos neg tokenized_text
  match readability_analysis stops cleaned_text with
  | none => none
  | some (avg_words_per_sentence, complex_word_count, fog_index) =>
    match syllable_count_per_word stops cleaned_text with
    | none => none
    | some syllable_per_word =>
      match average_word_length stops cleaned_text with
      | none => none
      | some avg_word_length =>
        if tokenized_text.length = 0 then none
        else
          some
            { positiveScore := s.1
              negativeScore := s.2.1
              polarityScore := s.2.2.1
              subjectivityScore := s.2.2.2
              avgSentenceLength := avg_words_per_sentence
              percentageComplexWords :=
                (complex_word_count : ℚ) / (tokenized_text.length : ℚ)
              fogIndex := fog_index
              avgWordsPerSentence := avg_words_per_sentence
              complexWordCount := complex_word_count
              wordCount := tokenized_text.length
              syllablePerWord := syllable_per_word
              personalPronouns := count_personal_pronouns cleaned_text
              avgWordLength := avg_word_length }

/-- Python truthiness of an optional string: `None` and the empty string are
falsy. -/
def truthy : Option (List Nat) → Bool
  | none => false
  | some s => !s.isEmpty

/-- Embeds the batch loop of `main` (`sentiment_analyzer.py`): each fetched
row is analyzed only when both title and body are truthy; a
`ZeroDivisionError` inside `analyze_text` aborts the batch before any output
is written, which `none` models. -/
def runBatch (stops pos neg : List (List Nat)) :
    List (Option (List Nat) × Option (List Nat)) → Option (List MetricsRecord)
  | [] => some []
  | (title, body) :: rest =>
    if truthy title && truthy body then
      match analyze_text stops pos neg (body.getD []) with
      | none => none
      | some record => (runBatch stops pos neg rest).map (fun out => record :: out)
    else runBatch stops pos neg rest

/-- Modelled from the spec: a fixed English stopword set (external NLTK
corpus, section 6 of the spec); a representative fragment containing the
personal pronouns, used for concrete evaluations. -/
def stopsEx : List (List Nat) :=
  [str ("i"), str ("me"), str ("my"), str ("myself"), str ("we"), str ("our"),
   str ("ours"), str ("ourselves"), str ("you"), str ("your"), str ("he"),
   str ("she"), str ("it"), str ("they"), str ("them"), str ("us"),
   str ("a"), str ("an"), str ("the"), str ("and"), str ("or"), str ("is"),
   str ("are"), str ("was"), str ("in"), str ("on"), str ("of"), str ("to")]

/-- A small concrete positive-opinion lexicon for evaluations. -/
def posEx : List (List Nat) :=
  [str ("good"), str ("great"), str ("win")]

/-- A small concrete negative-opinion lexicon for evaluations. -/
def negEx : List (List Nat) :=
  [str ("bad"), str ("sad"), str ("loss")]

/-- Positional characterization of maximal vowel runs: the number of
characters that are vowels and whose predecessor (start of word counting as
a non-vowel) is not a vowel, i.e. the number of run starts, one per maximal
run of consecutive vowels. -/
def vowelRunCount (w : List Nat) : Nat :=
  (w.zip (false :: w.map isVowel)).countP (fun cp => isVowel cp.1 && !cp.2)

/-! ### Character-level lemmas -/

theorem isEmpty_false_iff {α : Type} {w : List α} : w.isEmpty = false ↔ w ≠ [] := by
  cases w <;> simp

theorem isAlnum_toLower {c : Nat} (h : isAlnum c = true) : isAlnum (toLower c) = true := by
  simp only [isAlnum, toLower, Bool.or_eq_true, decide_eq_true_eq] at h ⊢
  split <;> omega

theorem toLower_toLower (c : Nat) : toLower (toLower c) = toLower c := by
  simp only [toLower]
  by_cases h : 65 ≤ c ∧ c ≤ 90
  · rw [if_pos h, if_neg (by omega)]
  · rw [if_neg h, if_neg h]

theorem isAlnum_not_space {c : Nat} (h : isAlnum c = true) : isSpaceChar c = false := by
  simp only [isAlnum, Bool.or_eq_true, decide_eq_true_eq] at h
  simp only [isSpaceChar, Bool.or_eq_false_iff, decide_eq_false_iff_not]
  omega

theorem isAlnum_not_sentEnd {c : Nat} (h : isAlnum c = true) : isSentEnd c = false := by
  simp only [isAlnum, Bool.or_eq_true, decide_eq_true_eq] at h
  simp only [isSentEnd, Bool.or_eq_false_iff, decide_eq_false_iff_not]
  omega

theorem isAlnum_wordChar {c : Nat} (h : isAlnum c = true) : isWordChar c = true := by
  simp [isWordChar, h]

theorem isWordChar_space : isWordChar spaceCode = false := by decide

/-! ### Lemmas about `splitRuns` -/

theorem splitRunsAux_run (p : Nat → Bool) (w rest acc : List Nat)
    (hw : ∀ c ∈ w, p c = true) :
    splitRunsAux p (w ++ rest) acc = splitRunsAux p rest (acc ++ w) := by
  induction w generalizing acc with
  | nil => simp
  | cons c w ih =>
    have hc : p c = true := hw c (by simp)
    rw [List.cons_append, splitRunsAux, if_pos hc,
      ih (acc ++ [c]) (fun d hd => hw d (by simp [hd]))]
    simp

theorem splitRunsAux_sep (p : Nat → Bool) (d : Nat) (rest acc : List Nat)
    (hd : p d = false) (hacc : acc ≠ []) :
    splitRunsAux p (d :: rest) acc = acc :: splitRunsAux p rest [] := by
  have he : acc.isEmpty = false := isEmpty_false_iff.mpr hacc
  rw [splitRunsAux, if_neg (by simp [hd]), if_neg (by simp [he])]

theorem splitRuns_joinSpace (p : Nat → Bool) (hsep : p spaceCode = false) :
    ∀ ws : List (List Nat), (∀ w ∈ ws, w ≠ [] ∧ ∀ c ∈ w, p c = true) →
      splitRuns p (joinSpace ws) = ws := by
  intro ws
  induction ws with
  | nil => intro _; rfl
  | cons w ws ih =>
    intro h
    obtain ⟨hw, hwp⟩ := h w (by simp)
    cases ws with
    | nil =>
      show splitRunsAux p (joinSpace [w]) [] = [w]
      have hj : joinSpace [w] = w ++ [] := by simp [joinSpace]
      rw [hj, splitRunsAux_run p w [] [] hwp]
      rw [List.nil_append, splitRunsAux, if_neg (by simp [isEmpty_false_iff.mpr hw])]
    | cons v t =>
      show splitRunsAux p (joinSpace (w :: v :: t)) [] = w :: v :: t
      have hjoin : joinSpace (w :: v :: t) = w ++ spaceCode :: joinSpace (v :: t) := rfl
      rw [hjoin, splitRunsAux_run p w _ [] hwp, List.nil_append,
        splitRunsAux_sep p spaceCode _ w hsep hw]
      exact congrArg (w :: ·) (ih (fun u hu => h u (by simp [hu])))

theorem mem_splitRunsAux (p : Nat → Bool) :
    ∀ (s acc : List Nat) (w : List Nat), w ∈ splitRunsAux p s acc →
      (∀ c ∈ acc, p c = true) → w ≠ [] ∧ ∀ c ∈ w, p c = true := by
  intro s
  induction s with
  | nil =>
    intro acc w hw hacc
    cases he : acc.isEmpty with
    | true =>
      rw [splitRunsAux, if_pos (by simp [he])] at hw
      exact absurd hw (List.not_mem_nil w)
    | false =>
      rw [splitRunsAux, if_neg (by simp [he])] at hw
      have hw' : w = acc := by simpa using hw
      subst hw'
      exact ⟨isEmpty_false_iff.mp he, hacc⟩
  | cons c rest ih =>
    intro acc w hw hacc
    cases hc : p c with
    | true =>
      rw [splitRunsAux, if_pos (by simp [hc])] at hw
      refine ih (acc ++ [c]) w hw ?_
      intro d hd
      rcases List.mem_append.mp hd with h | h
      · exact hacc d h
      · have : d = c := by simpa using h
        rw [this]; exact hc
    | false =>
      rw [splitRunsAux, if_neg (by simp [hc])] at hw
      cases he : acc.isEmpty with
      | true =>
        rw [if_pos (by simp [he])] at hw
        exact ih [] w hw (by simp)
      | false =>
        rw [if_neg (by simp [he])] at hw
        rcases List.mem_cons.mp hw with h | h
        · subst h
          exact ⟨isEmpty_false_iff.mp he, hacc⟩
        · exact ih [] w h (by simp)

theorem mem_splitRuns (p : Nat → Bool) {s w : List Nat}
    (hw : w ∈ splitRuns p s) : w ≠ [] ∧ ∀ c ∈ w, p c = true :=
  mem_splitRunsAux p s [] w hw (by simp)

theorem mem_of_mem_splitRunsAux (p : Nat → Bool) :
    ∀ (s acc : List Nat) (w : List Nat), w ∈ splitRunsAux p s acc →
      ∀ c ∈ w, c ∈ s ∨ c ∈ acc := by
  intro s
  induction s with
  | nil =>
    intro acc w hw c hc
    cases he : acc.isEmpty with
    | true =>
      rw [splitRunsAux, if_pos (by simp [he])] at hw
      exact absurd hw (List.not_mem_nil w)
    | false =>
      rw [splitRunsAux, if_neg (by simp [he])] at hw
      have hw' : w = acc := by simpa using hw
      subst hw'
      exact Or.inr hc
  | cons d rest ih =>
    intro acc w hw c hc
    cases hd : p d with
    | true =>
      rw [splitRunsAux, if_pos (by simp [hd])] at hw
      rcases ih (acc ++ [d]) w hw c hc with h | h
      · exact Or.inl (by simp [h])
      · rcases List.mem_append.mp h with h | h
        · exact Or.inr h
        · exact Or.inl (by simp at h; simp [h])
    | false =>
      rw [splitRunsAux, if_neg (by simp [hd])] at hw
      cases he : acc.isEmpty with
      | true =>
        rw [if_pos (by simp [he])] at hw
        rcases ih [] w hw c hc with h | h
        · exact Or.inl (by simp [h])
        · exact absurd h (List.not_mem_nil c)
      | false =>
        rw [if_neg (by simp [he])] at hw
        rcases List.mem_cons.mp hw with h | h
        · subst h; exact Or.inr hc
        · rcases ih [] w h c hc with h2 | h2
          · exact Or.inl (by simp [h2])
          · exact absurd h2 (List.not_mem_nil c)

theorem splitRunsAux_carries (p : Nat → Bool) :
    ∀ (s acc : List Nat), acc ≠ [] →
      ∃ w ∈ splitRunsAux p s acc, ∀ x ∈ acc, x ∈ w := by
  intro s
  induction s with
  | nil =>
    intro acc hacc
    refine ⟨acc, ?_, fun x hx => hx⟩
    rw [splitRunsAux, if_neg (by simp [isEmpty_false_iff.mpr hacc])]
    simp
  | cons d rest ih =>
    intro acc hacc
    cases hd : p d with
    | true =>
      obtain ⟨w, hw, hsub⟩ := ih (acc ++ [d]) (by simp)
      rw [splitRunsAux]
      refine ⟨w, by rw [if_pos (by simp [hd])]; exact hw, fun x hx => hsub x (by simp [hx])⟩
    | false =>
      refine ⟨acc, ?_, fun x hx => hx⟩
      rw [splitRunsAux_sep p d rest acc hd hacc]
      simp

theorem exists_mem_splitRuns (p : Nat → Bool) :
    ∀ (s : List Nat) (c : Nat), c ∈ s → p c = true →
      ∃ w ∈ splitRuns p s, c ∈ w := by
  have main : ∀ (s acc : List Nat) (c : Nat), c ∈ s → p c = true →
      ∃ w ∈ splitRunsAux p s acc, c ∈ w := by
    intro s
    induction s with
    | nil => intro acc c hc; exact absurd hc (List.not_mem_nil c)
    | cons d rest ih =>
      intro acc c hc hp
      cases hd : p d with
      | true =>
        rcases List.mem_cons.mp hc with h | h
        · subst h
          obtain ⟨w, hw, hsub⟩ := splitRunsAux_carries p rest (acc ++ [c]) (by simp)
          rw [splitRunsAux, if_pos (by simp [hd])]
          exact ⟨w, hw, hsub c (by simp)⟩
        · obtain ⟨w, hw, hcw⟩ := ih (acc ++ [d]) c h hp
          rw [splitRunsAux, if_pos (by simp [hd])]
          exact ⟨w, hw, hcw⟩
      | false =>
        have hcd : c ≠ d := fun h => by rw [h, hd] at hp; simp at hp
        have h : c ∈ rest := by
          rcases List.mem_cons.mp hc with h | h
          · exact absurd h hcd
          · exact h
        obtain ⟨w, hw, hcw⟩ := ih [] c h hp
        rw [splitRunsAux, if_neg (by simp [hd])]
        cases he : acc.isEmpty with
        | true => rw [if_pos (by simp [he])]; exact ⟨w, hw, hcw⟩
        | false => rw [if_neg (by simp [he])]; exact ⟨w, List.mem_cons_of_mem acc hw, hcw⟩
  intro s c hc hp
  exact main s [] c hc hp

/-! ### Lemmas about `cleanWords` and `clean_text` -/

theorem mem_cleanWords {stops : List (List Nat)} {text : List Nat} {w : List Nat}
    (hw : w ∈ cleanWords stops text) :
    w ≠ [] ∧ (∀ c ∈ w, isAlnum c = true) ∧ w.map toLower = w ∧ w ∉ stops := by
  unfold cleanWords at hw
  obtain ⟨hw1, hstop⟩ := List.mem_filter.mp hw
  obtain ⟨w0, hw0, rfl⟩ := List.mem_map.mp hw1
  obtain ⟨hw0tok, _⟩ := List.mem_filter.mp hw0
  obtain ⟨hne, hall⟩ := mem_splitRuns isAlnum hw0tok
  refine ⟨by simpa using hne, ?_, ?_, by simpa using hstop⟩
  · intro c hc
    obtain ⟨c0, hc0, rfl⟩ := List.mem_map.mp hc
    exact isAlnum_toLower (hall c0 hc0)
  · rw [List.map_map]
    exact List.map_congr_left (fun c _ => toLower_toLower c)

theorem word_tokenize_clean_text (stops : List (List Nat)) (text : List Nat) :
    word_tokenize (clean_text stops text) = cleanWords stops text := by
  unfold word_tokenize clean_text
  refine splitRuns_joinSpace isAlnum (by decide) _ (fun w hw => ?_)
  obtain ⟨h1, h2, _, _⟩ := mem_cleanWords hw
  exact ⟨h1, h2⟩

theorem pySplit_clean_text (stops : List (List Nat)) (text : List Nat) :
    pySplit (clean_text stops text) = cleanWords stops text := by
  unfold pySplit clean_text
  refine splitRuns_joinSpace _ (by decide) _ (fun w hw => ?_)
  obtain ⟨h1, h2, _, _⟩ := mem_cleanWords hw
  exact ⟨h1, fun c hc => by rw [isAlnum_not_space (h2 c hc)]; rfl⟩

/-! ### Lemmas about the pronoun scan -/

theorem countPronAux_inside_word (ps : List (List Nat)) :
    ∀ (w rest : List Nat), (∀ c ∈ w, isWordChar c = true) →
      countPronAux ps (w ++ rest) true = countPronAux ps rest true := by
  intro w
  induction w with
  | nil => intro rest _; rfl
  | cons c w ih =>
    intro rest hw
    rw [List.cons_append, countPronAux, hw c (by simp)]
    simp only [Bool.not_true, Bool.false_and, Bool.false_eq_true, if_false, Nat.zero_add]
    exact ih rest (fun d hd => hw d (by simp [hd]))

theorem matchesAt_word_start (ps : List (List Nat))
    (hps : ∀ p ∈ ps, p ≠ [] ∧ ∀ c ∈ p, isWordChar c = true)
    (w rest : List Nat) (_hwne : w ≠ []) (hw : ∀ c ∈ w, isWordChar c = true)
    (hbound : rest = [] ∨ ∃ d t, rest = d :: t ∧ isWordChar d = false)
    (hnot : ∀ p ∈ ps, p ≠ w) :
    matchesAt ps (w ++ rest) = false := by
  rw [matchesAt, List.any_eq_false]
  intro p hp
  obtain ⟨hpne, hpw⟩ := hps p hp
  intro hcontra
  rw [boundaryMatch, Bool.and_eq_true] at hcontra
  obtain ⟨hpre, hbnd⟩ := hcontra
  have hpre' : p <+: w ++ rest := List.isPrefixOf_iff_prefix.mp hpre
  have hwpre : w <+: w ++ rest := List.prefix_append w rest
  rcases List.prefix_or_prefix_of_prefix hpre' hwpre with hcase | hcase
  · obtain ⟨t, ht⟩ := hcase
    cases t with
    | nil => exact absurd (by simpa using ht) (hnot p hp)
    | cons d t =>
      have hsplit : w ++ rest = p ++ (d :: (t ++ rest)) := by
        rw [← ht]; simp
      rw [hsplit, List.drop_left] at hbnd
      have hd : d ∈ w := by rw [← ht]; simp
      simp [hw d hd] at hbnd
  · obtain ⟨t, ht⟩ := hcase
    cases t with
    | nil => exact hnot p hp (by simpa using ht.symm)
    | cons d t =>
      obtain ⟨u, hu⟩ := hpre'
      rw [← ht, List.append_assoc] at hu
      have hrest : (d :: t) ++ u = rest := List.append_cancel_left hu
      have hdw : isWordChar d = true := hpw d (by rw [← ht]; simp)
      rcases hbound with h | ⟨d0, t0, hr, hd0⟩
      · rw [h] at hrest; simp at hrest
      · rw [hr] at hrest
        have : d = d0 := by simpa using congrArg (fun l => l.headI) hrest
        rw [this] at hdw
        rw [hdw] at hd0
        simp at hd0

theorem countPronAux_word_start (ps : List (List Nat))
    (hps : ∀ p ∈ ps, p ≠ [] ∧ ∀ c ∈ p, isWordChar c = true)
    (w rest : List Nat) (hwne : w ≠ []) (hw : ∀ c ∈ w, isWordChar c = true)
    (hbound : rest = [] ∨ ∃ d t, rest = d :: t ∧ isWordChar d = false)
    (hnot : ∀ p ∈ ps, p ≠ w) :
    countPronAux ps (w ++ rest) false = countPronAux ps rest true := by
  cases w with
  | nil => exact absurd rfl hwne
  | cons c w =>
    rw [List.cons_append, countPronAux]
    rw [show (c :: (w ++ rest)) = (c :: w) ++ rest from rfl,
      matchesAt_word_start ps hps (c :: w) rest hwne hw hbound hnot]
    simp only [Bool.and_false, Bool.false_eq_true, if_false, Nat.zero_add]
    rw [hw c (by simp)]
    exact countPronAux_inside_word ps w rest (fun d hd => hw d (by simp [hd]))

theorem matchesAt_nonword (ps : List (List Nat))
    (hps : ∀ p ∈ ps, p ≠ [] ∧ ∀ c ∈ p, isWordChar c = true)
    (c : Nat) (rest : List Nat) (hc : isWordChar c = false) :
    matchesAt ps (c :: rest) = false := by
  rw [matchesAt, List.any_eq_false]
  intro p hp
  obtain ⟨hpne, hpw⟩ := hps p hp
  intro hcontra
  rw [boundaryMatch, Bool.and_eq_true] at hcontra
  obtain ⟨hpre, _⟩ := hcontra
  cases p with
  | nil => exact absurd rfl hpne
  | cons e p =>
    have hec : e = c := by
      obtain ⟨u, hu⟩ := List.isPrefixOf_iff_prefix.mp hpre
      simpa using congrArg (fun l => l.headI) hu
    have hew : isWordChar e = true := hpw e (by simp)
    rw [hec] at hew
    rw [hew] at hc
    simp at hc

theorem countPronAux_space (ps : List (List Nat))
    (hps : ∀ p ∈ ps, p ≠ [] ∧ ∀ c ∈ p, isWordChar c = true)
    (rest : List Nat) (b : Bool) :
    countPronAux ps (spaceCode :: rest) b = countPronAux ps rest false := by
  rw [countPronAux, matchesAt_nonword ps hps spaceCode rest isWordChar_space]
  simp only [Bool.and_false, Bool.false_eq_true, if_false, Nat.zero_add]
  rw [isWordChar_space]

theorem countPronAux_joinSpace_zero (ps : List (List Nat))
    (hps : ∀ p ∈ ps, p ≠ [] ∧ ∀ c ∈ p, isWordChar c = true) :
    ∀ ws : List (List Nat),
      (∀ w ∈ ws, w ≠ [] ∧ (∀ c ∈ w, isWordChar c = true) ∧ ∀ p ∈ ps, p ≠ w) →
      countPronAux ps (joinSpace ws) false = 0 := by
  intro ws
  induction ws with
  | nil => intro _; rfl
  | cons w ws ih =>
    intro h
    obtain ⟨hwne, hw, hnot⟩ := h w (by simp)
    cases ws with
    | nil =>
      show countPronAux ps (joinSpace [w]) false = 0
      have hj : joinSpace [w] = w ++ [] := by simp [joinSpace]
      rw [hj, countPronAux_word_start ps hps w [] hwne hw (Or.inl rfl) hnot]
      rfl
    | cons v t =>
      show countPronAux ps (joinSpace (w :: v :: t)) false = 0
      have hjoin : joinSpace (w :: v :: t) = w ++ spaceCode :: joinSpace (v :: t) := rfl
      rw [hjoin, countPronAux_word_start ps hps w _ hwne hw
        (Or.inr ⟨spaceCode, _, rfl, isWordChar_space⟩) hnot]
      rw [countPronAux_space ps hps]
      exact ih (fun u hu => h u (by simp [hu]))

theorem map_toLower_joinSpace (ws : List (List Nat))
    (h : ∀ w ∈ ws, w.map toLower = w) :
    (joinSpace ws).map toLower = joinSpace ws := by
  induction ws with
  | nil => rfl
  | cons w ws ih =>
    cases ws with
    | nil => simpa [joinSpace] using h w (by simp)
    | cons v t =>
      have hjoin : joinSpace (w :: v :: t) = w ++ spaceCode :: joinSpace (v :: t) := rfl
      rw [hjoin, List.map_append, List.map_cons, h w (by simp),
        ih (fun u hu => h u (by simp [hu]))]
      rfl

theorem pronounList_wordChars :
    ∀ p ∈ pronounList, p ≠ [] ∧ ∀ c ∈ p, isWordChar c = true := by decide

/-- If every personal pronoun is a stopword, the pronoun count of a cleaned
text is zero: every whole-word match site of the cleaned text is a cleaned
token, and no cleaned token is a pronoun. -/
theorem count_personal_pronouns_clean_text (stops : List (List Nat)) (text : List Nat)
    (hp : ∀ p ∈ pronounList, p ∈ stops) :
    count_personal_pronouns (clean_text stops text) = 0 := by
  unfold count_personal_pronouns clean_text
  rw [map_toLower_joinSpace _ (fun w hw => (mem_cleanWords hw).2.2.1)]
  refine countPronAux_joinSpace_zero pronounList pronounList_wordChars _ (fun w hw => ?_)
  obtain ⟨h1, h2, _, h4⟩ := mem_cleanWords hw
  refine ⟨h1, fun c hc => isAlnum_wordChar (h2 c hc), fun p hpp hpw => ?_⟩
  rw [hpw] at hpp
  exact h4 (hp w hpp)

/-! ### Cleaning is idempotent -/

theorem cleanWords_clean_text (stops : List (List Nat)) (text : List Nat) :
    cleanWords stops (clean_text stops text) = cleanWords stops text := by
  have h2 : (cleanWords stops text).filter pyIsAlnum = cleanWords stops text :=
    List.filter_eq_self.mpr (fun w hw => by
      obtain ⟨hne, hal, _, _⟩ := mem_cleanWords hw
      rw [pyIsAlnum, Bool.and_eq_true]
      exact ⟨by rw [isEmpty_false_iff.mpr hne]; rfl, List.all_eq_true.mpr hal⟩)
  have h3 : (cleanWords stops text).map (List.map toLower) = cleanWords stops text := by
    rw [List.map_congr_left (g := id) (fun w hw => (mem_cleanWords hw).2.2.1)]
    exact List.map_id _
  have h4 : (cleanWords stops text).filter (fun w => decide (w ∉ stops)) = cleanWords stops text :=
    List.filter_eq_self.mpr (fun w hw => by simp [(mem_cleanWords hw).2.2.2])
  show (((word_tokenize (clean_text stops text)).filter pyIsAlnum).map (List.map toLower)).filter
      (fun w => decide (w ∉ stops)) = cleanWords stops text
  rw [word_tokenize_clean_text, h2, h3, h4]

/-! ### Nonempty cleaned text forces a sentence -/

theorem exists_alnum_of_cleanWords_ne_nil {stops : List (List Nat)} {text : List Nat}
    (h : cleanWords stops text ≠ []) : ∃ c ∈ text, isAlnum c = true := by
  obtain ⟨w, hw⟩ := List.exists_mem_of_ne_nil _ h
  unfold cleanWords at hw
  obtain ⟨hw1, _⟩ := List.mem_filter.mp hw
  obtain ⟨w0, hw0, _⟩ := List.mem_map.mp hw1
  obtain ⟨hw0tok, _⟩ := List.mem_filter.mp hw0
  obtain ⟨hne, hall⟩ := mem_splitRuns isAlnum hw0tok
  obtain ⟨c, hc⟩ := List.exists_mem_of_ne_nil _ hne
  have hmem := mem_of_mem_splitRunsAux isAlnum text [] w0 hw0tok c hc
  exact ⟨c, by simpa using hmem, hall c hc⟩

theorem sent_tokenize_ne_nil {text : List Nat} (h : ∃ c ∈ text, isAlnum c = true) :
    sent_tokenize text ≠ [] := by
  obtain ⟨c, hc, hal⟩ := h
  have hp : (fun c => !(isSentEnd c)) c = true := by
    show (!(isSentEnd c)) = true
    rw [isAlnum_not_sentEnd hal]; rfl
  obtain ⟨w, hw, hcw⟩ := exists_mem_splitRuns (fun c => !(isSentEnd c)) text c hc hp
  have hmem : w ∈ sent_tokenize text := by
    rw [sent_tokenize]
    refine List.mem_filter.mpr ⟨hw, ?_⟩
    exact List.any_eq_true.mpr ⟨c, hcw, by rw [isAlnum_not_space hal]; rfl⟩
  exact List.ne_nil_of_mem hmem

/-! ### Syllables are maximal vowel runs -/

theorem syllablesAux_eq_runStarts (w : List Nat) :
    ∀ prev, syllablesAux w prev =
      (w.zip (prev :: w.map isVowel)).countP (fun cp => isVowel cp.1 && !cp.2) := by
  induction w with
  | nil => intro prev; rfl
  | cons c w ih =>
    intro prev
    have hzip : (c :: w).zip (prev :: (c :: w).map isVowel) =
        (c, prev) :: w.zip (isVowel c :: w.map isVowel) := rfl
    rw [hzip, List.countP_cons]
    cases hv : isVowel c <;> cases prev <;>
      simp [syllablesAux, hv, ih, Nat.add_comm]

/-! ### Extraction of the pronoun field from the pipeline -/

theorem personalPronouns_of_analyze (stops pos neg : List (List Nat)) (text : List Nat)
    (r : MetricsRecord) (hr : analyze_text stops pos neg text = some r) :
    r.personalPronouns = count_personal_pronouns (clean_text stops text) := by
  simp only [analyze_text] at hr
  split at hr
  · exact Option.noConfusion hr
  · split at hr
    · exact Option.noConfusion hr
    · split at hr
      · exact Option.noConfusion hr
      · split at hr
        · exact Option.noConfusion hr
        · injection hr with h
          rw [← h]

/-! ### Sum of indicators equals a count -/

theorem sum_indicator_eq_countP (l : List (List Nat)) (S : List (List Nat)) :
    (l.map (fun w => if w ∈ S then 1 else 0)).sum = l.countP (fun w => decide (w ∈ S)) := by
  induction l with
  | nil => rfl
  | cons a l ih =>
    rw [List.map_cons, List.sum_cons, List.countP_cons, ih]
    by_cases h : a ∈ S <;> simp [h, Nat.add_comm]

/-- Characterization of `readability_analysis`: with a positive cleaned
word count it returns the average-words-per-sentence, the complex-word
count over the cleaned words and the fog index; with a cleaned word count
of 0 it fails. -/
theorem readability_analysis_spec (stops : List (List Nat)) (text : List Nat) :
    (0 < (pySplit (clean_text stops text)).length →
      readability_analysis stops text = some
        ((((sent_tokenize text).map (fun s => (word_tokenize s).length)).sum : ℚ) /
            ((sent_tokenize text).length : ℚ),
          (pySplit (clean_text stops text)).countP
            (fun w => decide (6 < w.length) && decide (3 < count_syllables w)),
          (2 / 5 : ℚ) *
            ((((sent_tokenize text).map (fun s => (word_tokenize s).length)).sum : ℚ) /
                ((sent_tokenize text).length : ℚ) +
              ((pySplit (clean_text stops text)).countP
                  (fun w => decide (6 < w.length) && decide (3 < count_syllables w)) : ℚ) /
                ((pySplit (clean_text stops text)).length : ℚ)))) ∧
    ((pySplit (clean_text stops text)).length = 0 →
      readability_analysis stops text = none) := by
  constructor
  · intro hpos
    have hne : cleanWords stops text ≠ [] := by
      rw [pySplit_clean_text] at hpos
      exact List.length_pos.mp hpos
    have hsent : sent_tokenize text ≠ [] :=
      sent_tokenize_ne_nil (exists_alnum_of_cleanWords_ne_nil hne)
    have hslen : (sent_tokenize text).length ≠ 0 := by
      simpa [List.length_eq_zero] using hsent
    have hwlen : (pySplit (clean_text stops text)).length ≠ 0 := by omega
    simp only [readability_analysis]
    rw [if_neg hslen, if_neg hwlen]
    rfl
  · intro h0
    simp only [readability_analysis]
    by_cases hs : (sent_tokenize text).length = 0
    · rw [if_pos hs]
    · rw [if_neg hs, if_pos h0]

/-- Extraction of the AVG SENTENCE LENGTH field: `analyze_text` fills it
from `readability_analysis` applied to the cleaned text. -/
theorem avgSentenceLength_of_analyze (stops pos neg : List (List Nat)) (text : List Nat)
    (r : MetricsRecord) (hr : analyze_text stops pos neg text = some r) :
    some r.avgSentenceLength =
      (readability_analysis stops (clean_text stops text)).map (fun t => t.1) := by
  simp only [analyze_text] at hr
  split at hr
  · exact Option.noConfusion hr
  next avg cwc fog heq =>
    split at hr
    · exact Option.noConfusion hr
    · split at hr
      · exact Option.noConfusion hr
      · split at hr
        · exact Option.noConfusion hr
        · injection hr with h
          rw [← h, heq, Option.map_some']

/-! ## The claims -/

/-- C1: for every token sequence and lexica, `sentiment_analysis` returns
the count of tokens in the positive lexicon, the count of tokens in the
negative lexicon, `polarity = (positive - negative) / (positive + negative
+ 1e-6)` and `subjectivity = (positive + negative) / (len(tokens) + 1e-6)`;
in particular on tokens `good good bad` with lexica `{good}` and `{bad}` it
returns `(2, 1, 1/(3 + 1e-6), 3/(3 + 1e-6))`. -/
theorem C1_sentiment_scores (pos neg : List (List Nat)) (tokens : List (List Nat)) :
    sentiment_analysis pos neg tokens =
      (tokens.countP (fun w => decide (w ∈ pos)),
       tokens.countP (fun w => decide (w ∈ neg)),
       ((tokens.countP (fun w => decide (w ∈ pos)) : ℚ) -
           (tokens.countP (fun w => decide (w ∈ neg)) : ℚ)) /
         ((tokens.countP (fun w => decide (w ∈ pos)) : ℚ) +
           (tokens.countP (fun w => decide (w ∈ neg)) : ℚ) + 1 / 1000000),
       ((tokens.countP (fun w => decide (w ∈ pos)) : ℚ) +
           (tokens.countP (fun w => decide (w ∈ neg)) : ℚ)) /
         ((tokens.length : ℚ) + 1 / 1000000)) ∧
    sentiment_analysis [str ("good")] [str ("bad")]
        [str ("good"), str ("good"), str ("bad")] =
      (2, 1, 1 / (3 + 1 / 1000000), 3 / (3 + 1 / 1000000)) := by
  have hgen : ∀ pos neg tokens : List (List Nat),
      sentiment_analysis pos neg tokens =
        (tokens.countP (fun w => decide (w ∈ pos)),
         tokens.countP (fun w => decide (w ∈ neg)),
         ((tokens.countP (fun w => decide (w ∈ pos)) : ℚ) -
             (tokens.countP (fun w => decide (w ∈ neg)) : ℚ)) /
           ((tokens.countP (fun w => decide (w ∈ pos)) : ℚ) +
             (tokens.countP (fun w => decide (w ∈ neg)) : ℚ) + 1 / 1000000),
         ((tokens.countP (fun w => decide (w ∈ pos)) : ℚ) +
             (tokens.countP (fun w => decide (w ∈ neg)) : ℚ)) /
           ((tokens.length : ℚ) + 1 / 1000000)) := by
    intro pos neg tokens
    simp only [sentiment_analysis, eps]
    rw [sum_indicator_eq_countP tokens pos, sum_indicator_eq_countP tokens neg]
  refine ⟨hgen pos neg tokens, ?_⟩
  rw [hgen]
  have e1 : [str ("good"), str ("good"), str ("bad")].countP
      (fun w => decide (w ∈ [str ("good")])) = 2 := by decide
  have e2 : [str ("good"), str ("good"), str ("bad")].countP
      (fun w => decide (w ∈ [str ("bad")])) = 1 := by decide
  have e3 : [str ("good"), str ("good"), str ("bad")].length = 3 := by decide
  rw [e1, e2, e3]
  simp only [Prod.mk.injEq]
  norm_num

/-- C5: for every word, `count_syllables` returns the number of maximal
runs of consecutive characters from the vowel set `{a,e,i,o,u}` (counted by
their starts); in particular the empty word and `rhythm` give 0. -/
theorem C5_count_syllables_vowel_runs :
    (∀ word : List Nat, count_syllables word = vowelRunCount word) ∧
    count_syllables (str ("")) = 0 ∧ count_syllables (str ("rhythm")) = 0 :=
  ⟨fun word => syllablesAux_eq_runStarts word false, by decide, by decide⟩

/-- C6 (counterexample): the claim that `count_syllables` applied to `sky`
returns 1 is false: the vowel-only heuristic sees no vowel in `sky`. -/
theorem C6_counterexample : ¬ (count_syllables (str ("sky")) = 1) := by decide

/-- C6 (amended): `count_syllables` applied to `sky` returns 0, since `y`
is not in the vowel set of the heuristic. -/
theorem C6_amended : count_syllables (str ("sky")) = 0 := by decide

/-- C7: `clean_text` is idempotent for every stopword set and every text:
cleaning an already-cleaned string removes no further tokens and changes no
casing. -/
theorem C7_clean_text_idempotent (stops : List (List Nat)) (text : List Nat) :
    clean_text stops (clean_text stops text) = clean_text stops text := by
  show joinSpace (cleanWords stops (clean_text stops text)) = clean_text stops text
  rw [cleanWords_clean_text]
  rfl

/-- C4: whenever the cleaned word count is positive, `readability_analysis`
returns `fog_index = 0.4 * (avg_words_per_sentence + complex_word_count /
cleaned_word_count)`, with `avg_words_per_sentence` the total word count
over the sentence split divided by the sentence count, and
`complex_word_count` the number of cleaned words of length greater than 6
with syllable count greater than 3; when the cleaned word count is 0 the
computation fails (`none`) rather than returning a value. -/
theorem C4_fog_index_formula (stops : List (List Nat)) (text : List Nat) :
    (0 < (pySplit (clean_text stops text)).length →
      readability_analysis stops text = some
        ((((sent_tokenize text).map (fun s => (word_tokenize s).length)).sum : ℚ) /
            ((sent_tokenize text).length : ℚ),
          (pySplit (clean_text stops text)).countP
            (fun w => decide (6 < w.length) && decide (3 < count_syllables w)),
          (2 / 5 : ℚ) *
            ((((sent_tokenize text).map (fun s => (word_tokenize s).length)).sum : ℚ) /
                ((sent_tokenize text).length : ℚ) +
              ((pySplit (clean_text stops text)).countP
                  (fun w => decide (6 < w.length) && decide (3 < count_syllables w)) : ℚ) /
                ((pySplit (clean_text stops text)).length : ℚ)))) ∧
    ((pySplit (clean_text stops text)).length = 0 →
      readability_analysis stops text = none) :=
  readability_analysis_spec stops text

/-- C4 witness: on `Great win.` with the concrete stopword set the cleaned
word count is positive and the returned triple is `(2, 0, 0.8)`; on
`He is.` the cleaned word count is 0 and the computation fails. -/
theorem C4_witness :
    (0 < (pySplit (clean_text stopsEx (str ("Great win.")))).length) ∧
    readability_analysis stopsEx (str ("Great win.")) = some ((2 : ℚ), 0, (4 / 5 : ℚ)) ∧
    ((pySplit (clean_text stopsEx (str ("He is.")))).length = 0) ∧
    readability_analysis stopsEx (str ("He is.")) = none := by
  refine ⟨by decide, ?_, by decide, (C4_fog_index_formula stopsEx (str ("He is."))).2 (by decide)⟩
  rw [(C4_fog_index_formula stopsEx (str ("Great win."))).1 (by decide)]
  have e1 : ((sent_tokenize (str ("Great win."))).map
      (fun s => (word_tokenize s).length)).sum = 2 := by decide
  have e2 : (sent_tokenize (str ("Great win."))).length = 1 := by decide
  have e3 : (pySplit (clean_text stopsEx (str ("Great win.")))).countP
      (fun w => decide (6 < w.length) && decide (3 < count_syllables w)) = 0 := by decide
  have e4 : (pySplit (clean_text stopsEx (str ("Great win.")))).length = 2 := by decide
  rw [e1, e2, e3, e4]
  simp only [Option.some.injEq, Prod.mk.injEq]
  norm_num

/-- C9: for every stopword set containing the five personal pronouns and
every input text, the PERSONAL PRONOUNS field of the record returned by
`analyze_text` is 0: the counter runs on the cleaned text, every whole-word
match site of the cleaned text is a cleaned token, and no pronoun survives
stopword removal. -/
theorem C9_personal_pronouns_zero (stops pos neg : List (List Nat)) (text : List Nat)
    (hp : ∀ p ∈ pronounList, p ∈ stops) (r : MetricsRecord)
    (hr : analyze_text stops pos neg text = some r) :
    r.personalPronouns = 0 := by
  rw [personalPronouns_of_analyze stops pos neg text r hr]
  exact count_personal_pronouns_clean_text stops text hp

/-- C9 witness: on the text `Great win` the pipeline produces a record and
its PERSONAL PRONOUNS field is 0. -/
theorem C9_witness :
    (analyze_text stopsEx posEx negEx (str ("Great win"))).map
      (fun r => r.personalPronouns) = some 0 := by
  cases hq : analyze_text stopsEx posEx negEx (str ("Great win")) with
  | none => exact absurd hq (by decide)
  | some r =>
    rw [Option.map_some']
    rw [C9_personal_pronouns_zero stopsEx posEx negEx (str ("Great win")) (by decide) r hq]

/-- C2 (code divergence): `analyze_text` computes the PERSONAL PRONOUNS
metric by applying `count_personal_pronouns` to the cleaned text, not the
raw text: on the raw text `I love us` the counter finds 2 whole-word
pronouns, yet the record produced by the pipeline carries 0 because
stopword removal deleted the pronouns before counting. -/
theorem C2_pronouns_computed_on_cleaned_text :
    (analyze_text stopsEx posEx negEx (str ("I love us"))).map
        (fun r => r.personalPronouns) = some 0 ∧
    count_personal_pronouns (str ("I love us")) = 2 :=
  ⟨by decide, by decide⟩

/-- C3 (code divergence): `analyze_text` computes AVG SENTENCE LENGTH by
sentence-splitting the cleaned text, not the raw article: on
`Great win. Sad loss.` the raw sentence split gives 2 sentences and an
average of 2 words per sentence, yet the record carries 4 because the
cleaned text has no sentence punctuation left and counts as a single
sentence. -/
theorem C3_avg_sentence_length_on_cleaned_text :
    (analyze_text stopsEx posEx negEx (str ("Great win. Sad loss."))).map
        (fun r => r.avgSentenceLength) = some 4 ∧
    (readability_analysis stopsEx (str ("Great win. Sad loss."))).map
        (fun t => t.1) = some 2 := by
  constructor
  · cases hq : analyze_text stopsEx posEx negEx (str ("Great win. Sad loss.")) with
    | none => exact absurd hq (by decide)
    | some r =>
      rw [Option.map_some']
      have hv := avgSentenceLength_of_analyze stopsEx posEx negEx
        (str ("Great win. Sad loss.")) r hq
      rw [(readability_analysis_spec stopsEx
        (clean_text stopsEx (str ("Great win. Sad loss.")))).1 (by decide),
        Option.map_some'] at hv
      injection hv with hv
      rw [hv]
      have e1 : ((sent_tokenize (clean_text stopsEx (str ("Great win. Sad loss.")))).map
          (fun s => (word_tokenize s).length)).sum = 4 := by decide
      have e2 : (sent_tokenize (clean_text stopsEx (str ("Great win. Sad loss.")))).length = 1 :=
        by decide
      rw [e1, e2]
      norm_num
  · rw [(readability_analysis_spec stopsEx (str ("Great win. Sad loss."))).1 (by decide),
      Option.map_some']
    have e1 : ((sent_tokenize (str ("Great win. Sad loss."))).map
        (fun s => (word_tokenize s).length)).sum = 4 := by decide
    have e2 : (sent_tokenize (str ("Great win. Sad loss."))).length = 2 := by decide
    rw [e1, e2]
    norm_num

/-- C8 (counterexample): the number of output rows is not the number of
rows with a successfully fetched body: a row whose fetch returned a
non-empty body but no title is dropped, so a one-row batch with body
`good game` and no title yields 0 output rows while its body-success count
is 1. -/
theorem C8_counterexample :
    (runBatch stopsEx posEx negEx [(none, some (str ("good game")))]).map List.length =
      some 0 ∧
    ([((none : Option (List Nat)), some (str ("good game")))].countP
        (fun row => truthy row.2)) = 1 :=
  ⟨by decide, by decide⟩

/-- C8 (amended): an article whose fetched body is null or empty produces
no record, and when the batch completes the number of output rows equals
the number of rows whose fetch returned both a truthy title and a truthy
body. -/
theorem C8_amended_output_rows (stops pos neg : List (List Nat)) :
    (∀ t b rest, truthy b = false →
        runBatch stops pos neg ((t, b) :: rest) = runBatch stops pos neg rest) ∧
    (∀ rows out, runBatch stops pos neg rows = some out →
        out.length = rows.countP (fun row => truthy row.1 && truthy row.2)) := by
  constructor
  · intro t b rest hb
    simp [runBatch, hb]
  · intro rows
    induction rows with
    | nil =>
      intro out h
      injection h with h
      rw [← h]
      rfl
    | cons row rest ih =>
      obtain ⟨t, b⟩ := row
      intro out h
      rw [List.countP_cons]
      by_cases hc : (truthy t && truthy b) = true
      · rw [runBatch, if_pos hc] at h
        cases ha : analyze_text stops pos neg (b.getD []) with
        | none => rw [ha] at h; exact Option.noConfusion h
        | some record =>
          rw [ha] at h
          obtain ⟨out2, hout2, hcons⟩ := Option.map_eq_some'.mp h
          rw [← hcons, List.length_cons, ih out2 hout2]
          simp [hc]
      · rw [runBatch, if_neg hc] at h
        rw [ih out h]
        simp [hc]

/-- C8 witness: an untitled row is skipped like an empty-body row, and a
fully truthy one-row batch yields exactly one output row. -/
theorem C8_witness :
    truthy (none : Option (List Nat)) = false ∧
    runBatch stopsEx posEx negEx [(some (str ("Title")), none)] =
      runBatch stopsEx posEx negEx [] ∧
    (runBatch stopsEx posEx negEx [(some (str ("Title")), some (str ("good game")))]).map
      List.length = some 1 := by
  refine ⟨by decide,
    (C8_amended_output_rows stopsEx posEx negEx).1 (some (str ("Title"))) none [] (by decide),
    ?_⟩
  cases hq : runBatch stopsEx posEx negEx [(some (str ("Title")), some (str ("good game")))] with
  | none => exact absurd hq (by decide)
  | some out =>
    rw [Option.map_some', (C8_amended_output_rows stopsEx posEx negEx).2 _ out hq]
    decide

/-- C10: a record is emitted only when both the fetched title and the
fetched body are truthy: a row with a truthy body but a null or empty title
is skipped entirely and contributes no record. -/
theorem C10_title_also_required (stops pos neg : List (List Nat))
    (t b : Option (List Nat)) (rest : List (Option (List Nat) × Option (List Nat)))
    (_hb : truthy b = true) (ht : truthy t = false) :
    runBatch stops pos neg ((t, b) :: rest) = runBatch stops pos neg rest := by
  simp [runBatch, ht]

/-- C10 witness: a one-row batch with a non-empty body and no title
produces the same (empty) output as the empty batch. -/
theorem C10_witness :
    runBatch stopsEx posEx negEx [(none, some (str ("good game")))] =
      runBatch stopsEx posEx negEx [] ∧
    runBatch stopsEx posEx negEx [] = some [] :=
  ⟨C10_title_also_required stopsEx posEx negEx none (some (str ("good game"))) []
    (by decide) (by decide), rfl⟩
